import Mathlib

/-!
Verification of the hash-scraper pipeline (`hash_scraper.py`): a shallow
embedding of its data model, merge store, adapters and statistics
aggregator, together with proofs of the specified properties.

Python dictionaries are modelled as association lists (`List (String × Record)`)
that preserve insertion order; `List.lookup` models key lookup. Optional JSON
fields read with `dict.get` are modelled as `Option`. Timestamps are opaque
strings threaded as parameters (`now`, `today`).
-/

/-- Record is the canonical per-hash structure produced by the adapters
(the value stored under each hash key of `sha256_signatures`). -/
structure Record where
  classification : String
  detection_rate : String
  first_seen : String
  neartha_name : String
  additional_info : String
  file_type : String
deriving Repr, DecidableEq

/-- Dataset models one persisted JSON document: `version` and
`sha256_signatures` are read in the source with `dict.get` (so they may be
absent); `last_updated`, `description` and `source` are plain fields. -/
structure Dataset where
  version : Option String
  last_updated : String
  description : String
  source : String
  sha256_signatures : Option (List (String × Record))
deriving Repr, DecidableEq

/-- PriorFile models the state of the file at `(partition, date)` before a
`save_hash_data` call: absent, present but failing to load or merge
(the `except` branch at line 65), or loaded as a dataset. -/
inductive PriorFile where
  | missing
  | corrupt
  | loaded (d : Dataset)
deriving Repr, DecidableEq

/-- mergeSignatures models the merge loop of `save_hash_data`
(lines 58-62): for each `(hash_key, hash_data)` of the new mapping, insert it
at the end iff the key is not already present in the accumulated mapping. -/
def mergeSignatures (existing new : List (String × Record)) : List (String × Record) :=
  new.foldl
    (fun acc kv => if (acc.lookup kv.1).isSome then acc else acc ++ [kv])
    existing

/-- save_hash_data models lines 40-73 of the source, as a function from the
prior file state and the new dataset to the dataset that gets written:
with no prior (or a corrupt prior caught by the `except`), `data` is written
unchanged; with a loaded prior, the prior keeps its `description` and
`source`, takes `version` from the new data (default "1.0.0"), sets
`last_updated` to the current time, and merges the signature mappings. -/
def save_hash_data (prior : PriorFile) (data : Dataset) (now : String) : Dataset :=
  match prior with
  | .missing => data
  | .corrupt => data
  | .loaded existing =>
      { existing with
        version := some (data.version.getD "1.0.0")
        last_updated := now
        sha256_signatures :=
          some (mergeSignatures (existing.sha256_signatures.getD [])
                                (data.sha256_signatures.getD [])) }

/-- pyOrString models Python's `x or default` on an optional string:
`None` and the empty string are falsy. -/
def pyOrString (s : Option String) (dflt : String) : String :=
  match s with
  | none => dflt
  | some v => if v = "" then dflt else v

/-- generate_hash_structure models lines 75-84: the standard Record built
from a hash value and metadata; `first_seen` is the collection date and
`neartha_name` replaces spaces in the classification with dots. -/
def generate_hash_structure (hash_value classification detection_rate : String)
    (additional_info file_type : Option String) (today : String) : Record :=
  let _ := hash_value
  { classification := classification
    detection_rate := detection_rate
    first_seen := today
    neartha_name := classification.replace " " "."
    additional_info := pyOrString additional_info ""
    file_type := pyOrString file_type "Unknown" }

/-- dictInsert models Python dict assignment `d[k] = v`: an existing key
keeps its position and gets the new value; a fresh key is appended. -/
def dictInsert (l : List (String × Record)) (k : String) (v : Record) :
    List (String × Record) :=
  if (l.lookup k).isSome then
    l.map (fun kv => if kv.1 == k then (k, v) else kv)
  else
    l ++ [(k, v)]

/-! Hash-shape scan: a model of `re.findall` for the fixed pattern
`SHA256_PATTERN = \b[A-Fa-f0-9]{64}\b` over ASCII text (text is a list of
characters; `\w` is modelled by its ASCII fragment `[A-Za-z0-9_]`). -/

/-- hexDigit is the character class `[A-Fa-f0-9]` of SHA256_PATTERN. -/
def hexDigit (c : Char) : Bool :=
  ('0' ≤ c && c ≤ '9') || ('a' ≤ c && c ≤ 'f') || ('A' ≤ c && c ≤ 'F')

/-- wordChar is the (ASCII) regex word-character class `[A-Za-z0-9_]`
used by the `\b` anchors. -/
def wordChar (c : Char) : Bool :=
  ('0' ≤ c && c ≤ '9') || ('a' ≤ c && c ≤ 'z') || ('A' ≤ c && c ≤ 'Z') || c == '_'

/-- boundaryOk states the `\b` condition before a hex character, given the
preceding character (`none` at the start of the text). -/
def boundaryOk (prev : Option Char) : Bool :=
  match prev with
  | none => true
  | some c => !wordChar c

/-- tailBoundaryOk states the `\b` condition after the 64th hex character,
given the rest of the text. -/
def tailBoundaryOk : List Char → Bool
  | [] => true
  | c :: _ => !wordChar c

/-- matchHere decides whether SHA256_PATTERN matches at the current
position: word boundary before, 64 hex characters, word boundary after. -/
def matchHere (prev : Option Char) (l : List Char) : Bool :=
  boundaryOk prev && decide ((l.take 64).length = 64) &&
    (l.take 64).all hexDigit && tailBoundaryOk (l.drop 64)

/-- scanAux is the scanning loop of `re.findall`, with a fuel argument
bounding the number of steps (each step consumes at least one character, so
fuel equal to the text length is always enough): at each position, emit the
leftmost match and resume after its end (matches never overlap), otherwise
advance one character. `prev` is the character before the current position. -/
def scanAux : Nat → Option Char → List Char → List (List Char)
  | 0, _, _ => []
  | _, _, [] => []
  | fuel + 1, prev, c :: rest =>
      if matchHere prev (c :: rest) then
        (c :: rest).take 64 ::
          scanAux fuel ((c :: rest).take 64).getLast? ((c :: rest).drop 64)
      else
        scanAux fuel (some c) rest

/-- scanHashes models `SHA256_PATTERN.findall(text)` for the text that
follows a character `prev` (`none` at the start of the string). -/
def scanHashes (prev : Option Char) (l : List Char) : List (List Char) :=
  scanAux l.length prev l

/-! Feed/CSV adapter: `fetch_urlhaus_samples` (lines 142-196). Its input is
the response text as a list of characters; the Python string primitives it
uses (`str.split` with a one-character separator, `str.strip`, `str.lower`,
`str.startswith`) are modelled executably below. -/

/-- pyWhitespace is the set of characters `str.strip` removes. -/
def pyWhitespace (c : Char) : Bool :=
  c == ' ' || c == '\t' || c == '\n' || c == '\r' || c == '\x0b' || c == '\x0c'

/-- pyStrip models Python `str.strip()`: drop whitespace from both ends. -/
def pyStrip (l : List Char) : List Char :=
  ((l.dropWhile pyWhitespace).reverse.dropWhile pyWhitespace).reverse

/-- pySplit models Python `str.split(sep)` for a one-character separator:
split at every occurrence, keeping empty parts (`"".split(sep) == [""]`). -/
def pySplit (sep : Char) : List Char → List (List Char)
  | [] => [[]]
  | c :: rest =>
      match pySplit sep rest with
      | [] => [[]]
      | p :: ps => if c == sep then [] :: p :: ps else (c :: p) :: ps

/-- pyLowerChar models `str.lower` on one character (ASCII letters). -/
def pyLowerChar (c : Char) : Char :=
  if 'A' ≤ c && c ≤ 'Z' then Char.ofNat (c.toNat + 32) else c

/-- pyLower models Python `str.lower()` (on ASCII text). -/
def pyLower (l : List Char) : List Char :=
  l.map pyLowerChar

/-- urlhausRecordOfParts builds the Record literal of lines 180-187 from the
comma-separated fields of one row. -/
def urlhausRecordOfParts (parts : List (List Char)) (today : String) : Record :=
  let file_type := String.mk (pyStrip (parts.getD 5 []))
  let signature :=
    if parts.length > 6 then String.mk (pyStrip (parts.getD 6 [])) else "Malware.URLhaus"
  let first_seen :=
    if parts.length > 0 then String.mk (pyStrip (parts.getD 0 [])) else today
  { classification := if signature = "" then "Malware.URLhaus" else signature
    detection_rate := "Unknown"
    first_seen := first_seen
    neartha_name :=
      if signature = "" then "Malware.URLhaus.Generic" else "Malware." ++ signature
    additional_info := "Downloaded from malicious URL. File type: " ++ file_type
    file_type := file_type }

/-- urlhausProcessLine models one iteration of the line loop (lines 166-187):
skip comment and blank lines, split on commas, require at least 8 fields and
a 64-character hash in the 5th field, then store the Record under the
lower-cased hash. -/
def urlhausProcessLine (today : String) (sigs : List (String × Record))
    (line : List Char) : List (String × Record) :=
  if ['#'].isPrefixOf line || pyStrip line = [] then sigs
  else
    let parts := pySplit ',' line
    if parts.length ≥ 8 then
      let sha256 := pyLower (pyStrip (parts.getD 4 []))
      if sha256 = [] || ¬ sha256.length = 64 then sigs
      else dictInsert sigs (String.mk sha256) (urlhausRecordOfParts parts today)
    else sigs

/-- fetch_urlhaus_samples models the extraction part of the URLhaus adapter:
the signature mapping built from the feed text (split on newlines). -/
def fetch_urlhaus_samples (text : List Char) (today : String) :
    List (String × Record) :=
  (pySplit '\n' text).foldl (urlhausProcessLine today) []

/-! Bulk-API adapter: `fetch_malwarebazaar_samples` (lines 86-140), and
syndication adapter: `fetch_popular_malware_blogs` (lines 363-430).
A `ParseStep` is one item of the payload as the parser reaches it: `ok` is a
successfully parsed item, `err` is a malformed portion whose processing
raises (e.g. a non-dict sample, `intelligence: null`, or a feed entry whose
`content` list is empty). -/

/-- ParseStep is one parsing step of a payload: a parsed item, or a
malformed portion that raises an exception when processed. -/
inductive ParseStep (α : Type) where
  | ok (a : α)
  | err
deriving Repr, DecidableEq

/-- MBItem is one sample object of the MalwareBazaar JSON payload, with the
fields the loop of lines 117-131 reads (absent keys are `none`). -/
structure MBItem where
  sha256_hash : Option String
  signature : Option String
  tags : List String
  avdetection : Option String
  file_type : Option String
deriving Repr, DecidableEq

/-- mbProcessItem models one iteration of the sample loop (lines 117-131):
skip samples with a falsy hash, join tags (or "Unclassified"), and store the
generated Record under the hash. -/
def mbProcessItem (today : String) (sigs : List (String × Record))
    (item : MBItem) : List (String × Record) :=
  match item.sha256_hash with
  | none => sigs
  | some sha256 =>
      if sha256 = "" then sigs
      else
        let tag_str :=
          if item.tags = [] then "Unclassified" else ", ".intercalate item.tags
        dictInsert sigs sha256
          (generate_hash_structure sha256
            (item.signature.getD "Malware.Generic")
            ((item.avdetection.getD "?") ++ "/100")
            (some ("Tags: " ++ tag_str))
            item.file_type today)

/-- mbLoop models the sample loop under the function-level `try`: a
malformed item raises, aborting the loop with an exception. -/
def mbLoop (today : String) (sigs : List (String × Record)) :
    List (ParseStep MBItem) → Except Unit (List (String × Record))
  | [] => .ok sigs
  | .err :: _ => .error ()
  | .ok item :: rest => mbLoop today (mbProcessItem today sigs item) rest

/-- fetch_malwarebazaar_samples models the adapter's persisted contribution:
the `save_hash_data` calls (lines 133-134) sit inside the same `try` as the
parse loop, so an exception anywhere in the loop reaches the function-level
`except` (line 139) before any save; `none` means nothing was persisted. -/
def fetch_malwarebazaar_samples (today : String)
    (items : List (ParseStep MBItem)) : Option (List (String × Record)) :=
  match mbLoop today [] items with
  | .error _ => none
  | .ok sigs => some sigs

/-- BlogEntry is one feed entry: its title and the plain text of its
content (preferring `content` over `summary`; `none` when both are absent,
in which case the entry is skipped with `continue`). -/
structure BlogEntry where
  title : String
  text : Option (List Char)
deriving Repr, DecidableEq

/-- Blog is one configured feed: its display name and its parsed entries. -/
structure Blog where
  name : String
  entries : List (ParseStep BlogEntry)
deriving Repr, DecidableEq

/-- blogProcessEntry models lines 402-422 for one entry: extract all
hash-shaped substrings from the text and store a Record for each, with the
blog name and entry title as provenance. -/
def blogProcessEntry (blogName today : String) (sigs : List (String × Record))
    (e : BlogEntry) : List (String × Record) :=
  match e.text with
  | none => sigs
  | some txt =>
      (scanHashes none txt).foldl
        (fun acc h =>
          dictInsert acc (String.mk h)
            (generate_hash_structure (String.mk h) "Malware.SecurityBlog" "Unknown"
              (some ("Source: " ++ blogName ++ " - " ++ e.title))
              (some "Unknown") today))
        sigs

/-- blogEntriesLoop models the per-blog entry loop, which runs inside the
per-blog `try` (line 397): an exception while processing an entry aborts the
rest of that blog's entries but keeps everything inserted so far. -/
def blogEntriesLoop (blogName today : String) (sigs : List (String × Record)) :
    List (ParseStep BlogEntry) → List (String × Record)
  | [] => sigs
  | .err :: _ => sigs
  | .ok e :: rest => blogEntriesLoop blogName today (blogProcessEntry blogName today sigs e) rest

/-- blogLoop models the outer loop over configured blogs (line 395); each
blog processes at most its 10 most recent entries (line 401), and a failure
in one blog does not stop the next. -/
def blogLoop (today : String) (sigs : List (String × Record)) :
    List Blog → List (String × Record)
  | [] => sigs
  | b :: rest => blogLoop today (blogEntriesLoop b.name today sigs (b.entries.take 10)) rest

/-- fetch_popular_malware_blogs models the syndication adapter's persisted
contribution: the accumulated mapping is saved only when nonempty
(line 427); `none` means nothing was persisted. -/
def fetch_popular_malware_blogs (today : String) (blogs : List Blog) :
    Option (List (String × Record)) :=
  let sigs := blogLoop today [] blogs
  if sigs = [] then none else some sigs

/-! Statistics aggregator: `generate_stats` (lines 432-475). Its input is
the set of existing partition directories together with the contents of
their `.json` files; a file either loads as a dataset or fails to read or
parse (`FileContent.bad`, the `except` at line 472). -/

/-- FileContent is one persisted `.json` file as the aggregator reads it:
a loaded dataset, or a file whose read or parse raises. -/
inductive FileContent where
  | good (d : Dataset)
  | bad
deriving Repr, DecidableEq

/-- SourceStats is the per-partition counter pair of lines 452-455. -/
structure SourceStats where
  files : Nat
  hashes : Nat
deriving Repr, DecidableEq

/-- Stats is the snapshot written to `stats.json` (timestamp omitted). -/
structure Stats where
  sources : List (String × SourceStats)
  total_unique_hashes : Nat
deriving Repr, DecidableEq

/-- statsFiles models the inner file loop (lines 457-473): every `.json`
file bumps the file counter first (line 459); only a successfully loaded
file adds its signature count and its hash keys to the global set. -/
def statsFiles (s : SourceStats) (acc : Finset String) :
    List FileContent → SourceStats × Finset String
  | [] => (s, acc)
  | .bad :: rest => statsFiles ⟨s.files + 1, s.hashes⟩ acc rest
  | .good d :: rest =>
      let sigs := d.sha256_signatures.getD []
      statsFiles ⟨s.files + 1, s.hashes + sigs.length⟩
        (sigs.foldl (fun a kv => insert kv.1 a) acc) rest

/-- statsDirs models the outer directory loop (lines 447-473) over the
existing partition directories, threading the global hash set through. -/
def statsDirs (acc : Finset String) :
    List (String × List FileContent) → List (String × SourceStats) × Finset String
  | [] => ([], acc)
  | (name, fs) :: rest =>
      let r := statsFiles ⟨0, 0⟩ acc fs
      let rr := statsDirs r.2 rest
      ((name, r.1) :: rr.1, rr.2)

/-- generate_stats models the aggregator: per-partition counters plus the
cardinality of the global hash set (line 475). -/
def generate_stats (parts : List (String × List FileContent)) : Stats :=
  let r := statsDirs ∅ parts
  { sources := r.1, total_unique_hashes := r.2.card }

/-- sigKeys is the set of hash keys of a signature mapping. -/
def sigKeys (l : List (String × Record)) : Finset String :=
  (l.map Prod.fst).toFinset

/-- fileKeys is the set of hash keys one file contributes to the global
set (a failed file contributes nothing). -/
def fileKeys : FileContent → Finset String
  | .good d => sigKeys (d.sha256_signatures.getD [])
  | .bad => ∅

/-- filesKeys is the union of the key sets of a partition's files. -/
def filesKeys (fs : List FileContent) : Finset String :=
  fs.foldr (fun f a => fileKeys f ∪ a) ∅

/-- allKeys is the union of the key sets of all partitions. -/
def allKeys (parts : List (String × List FileContent)) : Finset String :=
  parts.foldr (fun p a => filesKeys p.2 ∪ a) ∅

/-- fileCounts is the per-partition counter pair a list of files produces:
every file counts toward `files`; only loaded files count hashes. -/
def fileCounts : List FileContent → SourceStats
  | [] => ⟨0, 0⟩
  | .bad :: fs => ⟨(fileCounts fs).files + 1, (fileCounts fs).hashes⟩
  | .good d :: fs =>
      ⟨(fileCounts fs).files + 1,
       (fileCounts fs).hashes + (d.sha256_signatures.getD []).length⟩

/-! Lemmas about association-list lookup and the merge loop. -/

theorem lookup_append (l₁ l₂ : List (String × Record)) (a : String) :
    (l₁ ++ l₂).lookup a = (l₁.lookup a).or (l₂.lookup a) := by
  induction l₁ with
  | nil => simp
  | cons kv t ih =>
      obtain ⟨k, v⟩ := kv
      by_cases h : a = k
      · simp [List.lookup, h]
      · have hbeq : (a == k) = false := beq_eq_false_iff_ne.mpr h
        simp [List.lookup, hbeq, ih]

theorem mergeSignatures_nil (e : List (String × Record)) :
    mergeSignatures e [] = e := rfl

theorem mergeSignatures_cons (e : List (String × Record)) (kv : String × Record)
    (t : List (String × Record)) :
    mergeSignatures e (kv :: t) =
      mergeSignatures (if (e.lookup kv.1).isSome then e else e ++ [kv]) t := rfl

/-- Lookup in the merged mapping: an existing binding wins, otherwise the
first binding of the new mapping is used. -/
theorem mergeSignatures_lookup (e n : List (String × Record)) (a : String) :
    (mergeSignatures e n).lookup a = (e.lookup a).or (n.lookup a) := by
  induction n generalizing e with
  | nil => simp [mergeSignatures_nil]
  | cons kv t ih =>
      obtain ⟨k, v⟩ := kv
      rw [mergeSignatures_cons, ih]
      by_cases hk : (e.lookup k).isSome
      · rw [if_pos hk]
        by_cases ha : a = k
        · subst ha
          obtain ⟨w, hw⟩ := Option.isSome_iff_exists.mp hk
          simp [List.lookup, hw]
        · have hbeq : (a == k) = false := beq_eq_false_iff_ne.mpr ha
          simp [List.lookup, hbeq]
      · rw [if_neg hk]
        by_cases ha : a = k
        · subst ha
          have he : e.lookup a = none := Option.not_isSome_iff_eq_none.mp hk
          simp [lookup_append, List.lookup, he]
        · have hbeq : (a == k) = false := beq_eq_false_iff_ne.mpr ha
          simp [lookup_append, List.lookup, hbeq]

theorem lookup_isSome_of_mem (l : List (String × Record)) (kv : String × Record)
    (h : kv ∈ l) : (l.lookup kv.1).isSome := by
  induction l with
  | nil => cases h
  | cons hd t ih =>
      obtain ⟨k, v⟩ := hd
      rcases List.mem_cons.mp h with h' | h'
      · subst h'
        simp [List.lookup]
      · by_cases hk : kv.1 = k
        · simp [List.lookup, hk]
        · have hbeq : (kv.1 == k) = false := beq_eq_false_iff_ne.mpr hk
          simp [List.lookup, hbeq, ih h']

theorem mergeSignatures_of_all_present (e n : List (String × Record))
    (h : ∀ kv ∈ n, (e.lookup kv.1).isSome) : mergeSignatures e n = e := by
  induction n generalizing e with
  | nil => rfl
  | cons kv t ih =>
      rw [mergeSignatures_cons, if_pos (h kv (List.mem_cons_self kv t))]
      exact ih e (fun kv' h' => h kv' (List.mem_cons_of_mem kv h'))

theorem mergeSignatures_idem (e n : List (String × Record)) :
    mergeSignatures (mergeSignatures e n) n = mergeSignatures e n := by
  apply mergeSignatures_of_all_present
  intro kv h
  rw [mergeSignatures_lookup]
  cases he : e.lookup kv.1 with
  | some w => simp
  | none => simpa using lookup_isSome_of_mem n kv h

/-! Concrete sample data used by witnesses and counterexamples. -/

/-- recA is a concrete record used in witnesses. -/
def recA : Record :=
  ⟨"Trojan.A", "10/100", "2024-01-01", "Trojan.A", "info A", "exe"⟩

/-- recB is a second concrete record, different from `recA`. -/
def recB : Record :=
  ⟨"Worm.B", "20/100", "2024-02-02", "Worm.B", "info B", "dll"⟩

/-- datasetD is a concrete prior dataset holding hash "h1" with `recA`. -/
def datasetD : Dataset :=
  { version := some "1.0.0"
    last_updated := "2024-01-01T00:00:00"
    description := "prior"
    source := "SourceD"
    sha256_signatures := some [("h1", recA)] }

/-- datasetN is a concrete new dataset carrying a conflicting record for
"h1" and a fresh hash "h2". -/
def datasetN : Dataset :=
  { version := some "1.0.0"
    last_updated := "2024-03-03T00:00:00"
    description := "new"
    source := "SourceN"
    sha256_signatures := some [("h1", recB), ("h2", recB)] }

/-- C1: merge non-destructiveness (first-write-wins). For a prior dataset D
that loads successfully and any new dataset N, every hash already present
in D's `sha256_signatures` keeps exactly its Record from D in the dataset
persisted by `save_hash_data`, regardless of N's record for that hash; and
a hash absent from D is looked up exactly as in N (only absent hashes are
inserted). -/
theorem merge_first_write_wins (D N : Dataset) (now : String) (h : String) (r : Record)
    (hprior : (D.sha256_signatures.getD []).lookup h = some r) :
    ((save_hash_data (PriorFile.loaded D) N now).sha256_signatures.getD []).lookup h
        = some r ∧
    ∀ h', (D.sha256_signatures.getD []).lookup h' = none →
      ((save_hash_data (PriorFile.loaded D) N now).sha256_signatures.getD []).lookup h'
        = (N.sha256_signatures.getD []).lookup h' := by
  constructor
  · simp [save_hash_data, mergeSignatures_lookup, hprior]
  · intro h' habsent
    simp [save_hash_data, mergeSignatures_lookup, habsent]

/-- C1 witness: with the concrete datasets, hash "h1" keeps `recA` even
though `datasetN` carries `recB` for it, and the fresh hash "h2" is looked
up as in `datasetN`. -/
theorem merge_first_write_wins_witness :
    ((save_hash_data (PriorFile.loaded datasetD) datasetN "T").sha256_signatures.getD
        []).lookup "h1" = some recA ∧
    ((save_hash_data (PriorFile.loaded datasetD) datasetN "T").sha256_signatures.getD
        []).lookup "h2" = (datasetN.sha256_signatures.getD []).lookup "h2" :=
  ⟨(merge_first_write_wins datasetD datasetN "T" "h1" recA (by decide)).1,
   (merge_first_write_wins datasetD datasetN "T" "h1" recA (by decide)).2 "h2" (by decide)⟩

/-- C2: merge idempotence. Re-merging the same new dataset N into the result
of merging N into D persists exactly the same dataset again. -/
theorem merge_idempotent (D N : Dataset) (now : String) :
    save_hash_data (PriorFile.loaded (save_hash_data (PriorFile.loaded D) N now)) N now
      = save_hash_data (PriorFile.loaded D) N now := by
  simp only [save_hash_data, Option.getD_some]
  rw [mergeSignatures_idem]

/-- sampleNew is a new dataset whose `last_updated` differs from the time of
the `save_hash_data` call. -/
def sampleNew : Dataset :=
  { version := none
    last_updated := "2020-01-01T00:00:00"
    description := "fresh"
    source := "S"
    sha256_signatures := some [("h1", recA)] }

/-- C4 counterexample: with no prior file, `save_hash_data` writes the new
dataset unchanged; the persisted result is not the new dataset re-stamped
with the current time, because `last_updated` is left exactly as the caller
set it (the stamping happens in the adapters, not in `save_hash_data`). -/
theorem save_missing_not_restamped :
    save_hash_data PriorFile.missing sampleNew "2025-06-01T00:00:00"
      ≠ { sampleNew with last_updated := "2025-06-01T00:00:00" } := by
  decide

/-- C4 (amended): when the prior file is absent, or exists but fails to load
or parse (the logged `except` branch), `save_hash_data` never raises,
degrades to an empty prior mapping, and persists exactly the new dataset N,
unchanged — in particular N's own `last_updated` (which the adapters set to
the collection time when they build N) is kept as-is rather than re-stamped. -/
theorem save_degraded_prior_yields_new_data (N : Dataset) (now : String) :
    save_hash_data PriorFile.missing N now = N ∧
    save_hash_data PriorFile.corrupt N now = N :=
  ⟨rfl, rfl⟩

/-- C9: merge frame property. When a prior dataset D loads successfully, the
persisted dataset keeps D's `description` and `source` unchanged, sets
`version` to N's version (default "1.0.0" when absent), refreshes
`last_updated` to the current time, and merges the signature mappings —
and nothing else changes, as the full record equality shows. -/
theorem merge_frame (D N : Dataset) (now : String) :
    save_hash_data (PriorFile.loaded D) N now =
      { version := some (N.version.getD "1.0.0")
        last_updated := now
        description := D.description
        source := D.source
        sha256_signatures :=
          some (mergeSignatures (D.sha256_signatures.getD [])
                                (N.sha256_signatures.getD [])) } := rfl


/-! Lemmas characterizing the statistics aggregator. -/

theorem foldl_insert_keys (sigs : List (String × Record)) (acc : Finset String) :
    sigs.foldl (fun a kv => insert kv.1 a) acc = acc ∪ sigKeys sigs := by
  induction sigs generalizing acc with
  | nil => simp [sigKeys]
  | cons kv t ih =>
      rw [List.foldl_cons, ih]
      ext x
      simp [sigKeys]

theorem statsFiles_eq (fs : List FileContent) (s : SourceStats) (acc : Finset String) :
    statsFiles s acc fs =
      (⟨s.files + (fileCounts fs).files, s.hashes + (fileCounts fs).hashes⟩,
       acc ∪ filesKeys fs) := by
  induction fs generalizing s acc with
  | nil => simp [statsFiles, fileCounts, filesKeys]
  | cons f t ih =>
      cases f with
      | bad =>
          simp only [statsFiles, ih, fileCounts, filesKeys, fileKeys, List.foldr_cons,
            Prod.mk.injEq, SourceStats.mk.injEq]
          refine ⟨⟨by omega, trivial⟩, by simp⟩
      | good d =>
          simp only [statsFiles, ih, fileCounts, filesKeys, fileKeys, List.foldr_cons,
            Prod.mk.injEq, SourceStats.mk.injEq]
          refine ⟨⟨by omega, by omega⟩, ?_⟩
          rw [foldl_insert_keys, Finset.union_assoc]

theorem statsDirs_eq (parts : List (String × List FileContent)) (acc : Finset String) :
    statsDirs acc parts =
      (parts.map (fun p => (p.1, fileCounts p.2)), acc ∪ allKeys parts) := by
  induction parts generalizing acc with
  | nil => simp [statsDirs, allKeys]
  | cons p t ih =>
      obtain ⟨name, fs⟩ := p
      simp only [statsDirs, statsFiles_eq, ih, allKeys, List.foldr_cons, List.map_cons,
        Prod.mk.injEq, List.cons.injEq]
      refine ⟨⟨⟨trivial, ?_⟩, trivial⟩, by rw [Finset.union_assoc]⟩
      simp only [Nat.zero_add]

/-- Characterization of the aggregator: the per-partition counters are a
pure function of each partition's files, and the global unique count is the
cardinality of the union of all hash-key sets. -/
theorem generate_stats_eq (parts : List (String × List FileContent)) :
    generate_stats parts =
      ⟨parts.map (fun p => (p.1, fileCounts p.2)), (allKeys parts).card⟩ := by
  simp [generate_stats, statsDirs_eq]

theorem allKeys_cons (p : String × List FileContent) (l : List (String × List FileContent)) :
    allKeys (p :: l) = filesKeys p.2 ∪ allKeys l := rfl

theorem allKeys_append (l1 l2 : List (String × List FileContent)) :
    allKeys (l1 ++ l2) = allKeys l1 ∪ allKeys l2 := by
  induction l1 with
  | nil => simp [allKeys]
  | cons p t ih => simp only [List.cons_append, allKeys_cons, ih, Finset.union_assoc]

theorem fileCounts_append_bad (fs1 fs2 : List FileContent) :
    fileCounts (fs1 ++ FileContent.bad :: fs2) =
      ⟨(fileCounts (fs1 ++ fs2)).files + 1, (fileCounts (fs1 ++ fs2)).hashes⟩ := by
  induction fs1 with
  | nil => rfl
  | cons f t ih =>
      cases f with
      | bad =>
          simp only [List.cons_append, fileCounts, List.append_eq]
          rw [ih]
      | good d =>
          simp only [List.cons_append, fileCounts, List.append_eq]
          rw [ih]

theorem filesKeys_append_bad (fs1 fs2 : List FileContent) :
    filesKeys (fs1 ++ FileContent.bad :: fs2) = filesKeys (fs1 ++ fs2) := by
  induction fs1 with
  | nil => simp [filesKeys, fileKeys]
  | cons f t ih =>
      simp only [List.cons_append, filesKeys, List.foldr_cons] at ih ⊢
      rw [ih]

/-- C5: aggregator unique-count correctness. For two partitions whose
datasets both contain the hash H (plus arbitrary further partitions), the
global `total_unique_hashes` counts H exactly once (it is one more than the
count with H removed from the union of all key sets), while the hash counter
of each of the two partitions still includes H's entry (each equals one more
than the number of its other keys). -/
theorem stats_unique_count (n1 n2 : String) (d1 d2 : Dataset)
    (rest : List (String × List FileContent)) (H : String)
    (hnd1 : ((d1.sha256_signatures.getD []).map Prod.fst).Nodup)
    (hnd2 : ((d2.sha256_signatures.getD []).map Prod.fst).Nodup)
    (h1 : H ∈ sigKeys (d1.sha256_signatures.getD []))
    (h2 : H ∈ sigKeys (d2.sha256_signatures.getD [])) :
    (generate_stats ((n1, [FileContent.good d1]) :: (n2, [FileContent.good d2]) :: rest)).total_unique_hashes
      = ((allKeys ((n1, [FileContent.good d1]) :: (n2, [FileContent.good d2]) :: rest)).erase H).card + 1 ∧
    (generate_stats ((n1, [FileContent.good d1]) :: (n2, [FileContent.good d2]) :: rest)).sources
      = (n1, ⟨1, ((sigKeys (d1.sha256_signatures.getD [])).erase H).card + 1⟩) ::
        (n2, ⟨1, ((sigKeys (d2.sha256_signatures.getD [])).erase H).card + 1⟩) ::
        rest.map (fun p => (p.1, fileCounts p.2)) := by
  have hmem : H ∈ allKeys ((n1, [FileContent.good d1]) :: (n2, [FileContent.good d2]) :: rest) := by
    simp only [allKeys_cons, filesKeys, fileKeys, List.foldr_cons, List.foldr_nil,
      Finset.union_empty, Finset.mem_union]
    tauto
  have hc1 : (sigKeys (d1.sha256_signatures.getD [])).card
      = (d1.sha256_signatures.getD []).length := by
    unfold sigKeys
    rw [List.toFinset_card_of_nodup hnd1, List.length_map]
  have hc2 : (sigKeys (d2.sha256_signatures.getD [])).card
      = (d2.sha256_signatures.getD []).length := by
    unfold sigKeys
    rw [List.toFinset_card_of_nodup hnd2, List.length_map]
  have e1 : (d1.sha256_signatures.getD []).length
      = ((sigKeys (d1.sha256_signatures.getD [])).erase H).card + 1 := by
    rw [Finset.card_erase_add_one h1, hc1]
  have e2 : (d2.sha256_signatures.getD []).length
      = ((sigKeys (d2.sha256_signatures.getD [])).erase H).card + 1 := by
    rw [Finset.card_erase_add_one h2, hc2]
  have f1 : fileCounts [FileContent.good d1]
      = ⟨1, ((sigKeys (d1.sha256_signatures.getD [])).erase H).card + 1⟩ := by
    simp only [fileCounts, Nat.zero_add]
    rw [e1]
  have f2 : fileCounts [FileContent.good d2]
      = ⟨1, ((sigKeys (d2.sha256_signatures.getD [])).erase H).card + 1⟩ := by
    simp only [fileCounts, Nat.zero_add]
    rw [e2]
  constructor
  · rw [generate_stats_eq]
    exact (Finset.card_erase_add_one hmem).symm
  · rw [generate_stats_eq]
    simp only [List.map_cons]
    rw [f1, f2]

/-- C5 witness: datasets `datasetD` (keys h1) and `datasetN` (keys h1, h2)
share hash "h1"; the global unique count is 2 (h1 counted once) while the
partitions count 1 and 2 hashes respectively (each still counting h1). -/
theorem stats_unique_count_witness :
    (generate_stats [("p1", [FileContent.good datasetD]),
        ("p2", [FileContent.good datasetN])]).total_unique_hashes = 2 ∧
    (generate_stats [("p1", [FileContent.good datasetD]),
        ("p2", [FileContent.good datasetN])]).sources
      = [("p1", ⟨1, 1⟩), ("p2", ⟨1, 2⟩)] := by
  have h := stats_unique_count "p1" "p2" datasetD datasetN [] "h1"
    (by decide) (by decide) (by decide) (by decide)
  exact ⟨by rw [h.1]; decide, by rw [h.2]; decide⟩

/-- C8 counterexample: a partition holding one unreadable file does not
produce the same statistics as the same partition with that file absent —
the `files` counter is incremented before the read is attempted (line 459),
so the failed file still counts as a file. -/
theorem stats_bad_file_counted :
    generate_stats [("p", [FileContent.bad])] ≠ generate_stats [("p", [])] := by
  decide

/-- C8 (amended): aggregator per-file fault isolation, except for the file
counter. When exactly one file fails to read or parse, `generate_stats`
completes, the failed file contributes nothing to the hash counters or the
global unique-hash set (both equal their values with the file absent), but
the per-partition `files` counter still counts the unreadable file (one more
than with the file absent); all other partitions' entries are unchanged. -/
theorem stats_bad_file_isolation (ps1 : List (String × List FileContent)) (n : String)
    (fs1 fs2 : List FileContent) (ps2 : List (String × List FileContent)) :
    (generate_stats (ps1 ++ (n, fs1 ++ FileContent.bad :: fs2) :: ps2)).total_unique_hashes
      = (generate_stats (ps1 ++ (n, fs1 ++ fs2) :: ps2)).total_unique_hashes ∧
    (generate_stats (ps1 ++ (n, fs1 ++ FileContent.bad :: fs2) :: ps2)).sources
      = ps1.map (fun p => (p.1, fileCounts p.2)) ++
        (n, ⟨(fileCounts (fs1 ++ fs2)).files + 1, (fileCounts (fs1 ++ fs2)).hashes⟩) ::
        ps2.map (fun p => (p.1, fileCounts p.2)) ∧
    (generate_stats (ps1 ++ (n, fs1 ++ fs2) :: ps2)).sources
      = ps1.map (fun p => (p.1, fileCounts p.2)) ++
        (n, fileCounts (fs1 ++ fs2)) ::
        ps2.map (fun p => (p.1, fileCounts p.2)) := by
  refine ⟨?_, ?_, ?_⟩
  · simp only [generate_stats_eq, allKeys_append, allKeys_cons, filesKeys_append_bad]
  · simp only [generate_stats_eq, List.map_append, List.map_cons, fileCounts_append_bad]
  · simp only [generate_stats_eq, List.map_append, List.map_cons]

/-! Parse-error control flow of the two adapters named by the spec's
error taxonomy. -/

theorem blogEntriesLoop_take_err (n today : String) (es2 : List (ParseStep BlogEntry)) :
    ∀ (es1 : List (ParseStep BlogEntry)) (k : Nat) (s : List (String × Record)),
      blogEntriesLoop n today s ((es1 ++ ParseStep.err :: es2).take k)
        = blogEntriesLoop n today s (es1.take k) := by
  intro es1
  induction es1 with
  | nil =>
      intro k s
      cases k with
      | zero => rfl
      | succ m => rfl
  | cons e t ih =>
      intro k s
      cases k with
      | zero => rfl
      | succ m =>
          cases e with
          | err => rfl
          | ok b =>
              simp only [List.cons_append, List.take_succ_cons, blogEntriesLoop]
              exact ih m _

theorem mbLoop_err (today : String) (post : List (ParseStep MBItem)) :
    ∀ (pre : List (ParseStep MBItem)) (s : List (String × Record)),
      mbLoop today s (pre ++ ParseStep.err :: post) = .error () := by
  intro pre
  induction pre with
  | nil => intro s; rfl
  | cons p t ih =>
      intro s
      cases p with
      | err => rfl
      | ok item => exact ih _

/-- C6 (amended): parse-error retention differs between the two adapters.
For the syndication adapter, entries parsed before a malformed entry are
retained: the run equals one whose feed holds only the entries before the
malformed one, and later blogs are unaffected (the `try` is per blog, and
saving happens after the blog loop). For the bulk-API adapter, a parse error
anywhere in the payload reaches the function-level handler before the save
calls, so nothing at all is persisted for that run — items parsed before the
malformed portion are not retained. -/
theorem parse_error_retention (today n : String) (es1 es2 : List (ParseStep BlogEntry))
    (rest : List Blog) (pre post : List (ParseStep MBItem)) :
    fetch_popular_malware_blogs today
        ({ name := n, entries := es1 ++ ParseStep.err :: es2 } :: rest)
      = fetch_popular_malware_blogs today ({ name := n, entries := es1 } :: rest) ∧
    fetch_malwarebazaar_samples today (pre ++ ParseStep.err :: post) = none := by
  constructor
  · unfold fetch_popular_malware_blogs
    simp only [blogLoop]
    rw [blogEntriesLoop_take_err]
  · unfold fetch_malwarebazaar_samples
    rw [mbLoop_err]

/-- mbItemGood is a well-formed MalwareBazaar sample used to show that an
already-parsed item is lost when a later item is malformed. -/
def mbItemGood : MBItem :=
  { sha256_hash := some "aaaaaaaaaaaaaaaaaaaaaaaaaaaaaaaaaaaaaaaaaaaaaaaaaaaaaaaaaaaaaaaa"
    signature := some "Trojan.X"
    tags := []
    avdetection := some "55"
    file_type := some "exe" }

/-- C6 counterexample: for the bulk-API adapter, a payload whose first item
parses fine and whose second is malformed persists nothing at all — the
already-parsed first item is not retained, contradicting the claim that
items parsed before the malformed portion are kept. -/
theorem mb_parse_error_drops_all :
    fetch_malwarebazaar_samples "2025-01-01" [ParseStep.ok mbItemGood, ParseStep.err]
      = none := rfl

/-- C7: CSV adapter extraction scenario. For a feed of a comment line, a
blank line and one valid data row (at least 8 comma-separated fields, whose
5th field strips and lower-cases to a 64-character hash), the URLhaus
adapter extracts exactly one Record, keyed by the lower-cased hash, with
file type and signature taken positionally from the 6th and 7th fields. -/
theorem urlhaus_csv_scenario (text : List Char) (today : String)
    (c b r : List Char) (parts : List (List Char))
    (hsplit : pySplit '\n' text = [c, b, r])
    (hc : ['#'].isPrefixOf c = true)
    (hb : pyStrip b = [])
    (hr1 : ['#'].isPrefixOf r = false)
    (hr2 : ¬ pyStrip r = [])
    (hparts : pySplit ',' r = parts)
    (hlen : parts.length ≥ 8)
    (hsha : (pyLower (pyStrip (parts.getD 4 []))).length = 64) :
    fetch_urlhaus_samples text today
      = [(String.mk (pyLower (pyStrip (parts.getD 4 []))),
          urlhausRecordOfParts parts today)] := by
  have hne : ¬ pyLower (pyStrip (parts.getD 4 [])) = [] := by
    intro h
    rw [h] at hsha
    simp at hsha
  unfold fetch_urlhaus_samples
  rw [hsplit]
  simp only [List.foldl_cons, List.foldl_nil]
  have step1 : urlhausProcessLine today [] c = [] := by
    unfold urlhausProcessLine
    simp [hc]
  have step2 : urlhausProcessLine today [] b = [] := by
    unfold urlhausProcessLine
    simp [hb]
  have step3 : urlhausProcessLine today [] r
      = [(String.mk (pyLower (pyStrip (parts.getD 4 []))),
          urlhausRecordOfParts parts today)] := by
    unfold urlhausProcessLine
    simp [hr1, hr2, hparts, hlen, hsha, hne, dictInsert]
    exact ⟨by simpa [List.getD] using hne, by simpa [List.getD] using hsha⟩
  rw [step1, step2, step3]

/-- C7 witness: a concrete feed with a comment line, a blank line and one
valid row whose 5th field is an upper-case 64-character hash yields exactly
one Record under the lower-cased hash. -/
theorem urlhaus_csv_scenario_witness :
    fetch_urlhaus_samples
        ("# header\n\n2024-01-01,u,s,r,ABCDEF0123456789ABCDEF0123456789ABCDEF0123456789ABCDEF0123456789,exe,TestSig,x".toList)
        "2025"
      = [("abcdef0123456789abcdef0123456789abcdef0123456789abcdef0123456789",
          { classification := "TestSig"
            detection_rate := "Unknown"
            first_seen := "2024-01-01"
            neartha_name := "Malware.TestSig"
            additional_info := "Downloaded from malicious URL. File type: exe"
            file_type := "exe" })] := by
  rw [urlhaus_csv_scenario
    ("# header\n\n2024-01-01,u,s,r,ABCDEF0123456789ABCDEF0123456789ABCDEF0123456789ABCDEF0123456789,exe,TestSig,x".toList)
    "2025"
    ("# header".toList) ([])
    ("2024-01-01,u,s,r,ABCDEF0123456789ABCDEF0123456789ABCDEF0123456789ABCDEF0123456789,exe,TestSig,x".toList)
    (pySplit ',' ("2024-01-01,u,s,r,ABCDEF0123456789ABCDEF0123456789ABCDEF0123456789ABCDEF0123456789,exe,TestSig,x".toList))
    (by decide) (by decide) (by decide) (by decide) (by decide) rfl (by decide) (by decide)]
  decide

/-- C10: the normalizer ignores its hash argument. The Record returned by
`generate_hash_structure` is the same for any two hash values given the same
classification, detection rate, additional info, file type and date — the
hash never appears in the Record body, only as the mapping key chosen by the
caller. -/
theorem generate_hash_structure_ignores_hash (h1 h2 classification detection : String)
    (additional file_t : Option String) (today : String) :
    generate_hash_structure h1 classification detection additional file_t today
      = generate_hash_structure h2 classification detection additional file_t today := rfl

/-! Lemmas about the hash-shape scan. -/

theorem scanAux_fuel (fuel₁ : Nat) :
    ∀ (fuel₂ : Nat) (prev : Option Char) (l : List Char),
      l.length ≤ fuel₁ → l.length ≤ fuel₂ →
      scanAux fuel₁ prev l = scanAux fuel₂ prev l := by
  induction fuel₁ with
  | zero =>
      intro fuel₂ prev l h1 h2
      have hl : l = [] := List.length_eq_zero.mp (Nat.le_zero.mp h1)
      subst hl
      cases fuel₂ <;> rfl
  | succ f ih =>
      intro fuel₂ prev l h1 h2
      cases l with
      | nil => cases fuel₂ <;> rfl
      | cons c rest =>
          cases fuel₂ with
          | zero => simp at h2
          | succ g =>
              simp only [scanAux]
              by_cases h : matchHere prev (c :: rest) = true
              · rw [if_pos h, if_pos h]
                have hd : ((c :: rest).drop 64).length ≤ f := by
                  simp only [List.length_drop, List.length_cons]
                  simp only [List.length_cons] at h1
                  omega
                have hd2 : ((c :: rest).drop 64).length ≤ g := by
                  simp only [List.length_drop, List.length_cons]
                  simp only [List.length_cons] at h2
                  omega
                rw [ih g _ _ hd hd2]
              · rw [if_neg h, if_neg h]
                have hr : rest.length ≤ f := by
                  simp only [List.length_cons] at h1
                  omega
                have hr2 : rest.length ≤ g := by
                  simp only [List.length_cons] at h2
                  omega
                rw [ih g _ _ hr hr2]

theorem scanHashes_cons_pos (prev : Option Char) (c : Char) (rest : List Char)
    (h : matchHere prev (c :: rest) = true) :
    scanHashes prev (c :: rest)
      = (c :: rest).take 64 ::
          scanHashes ((c :: rest).take 64).getLast? ((c :: rest).drop 64) := by
  unfold scanHashes
  simp only [List.length_cons, scanAux, if_pos h]
  congr 1
  apply scanAux_fuel
  · simp only [List.length_drop, List.length_cons]
    omega
  · exact Nat.le_refl _

theorem scanHashes_cons_neg (prev : Option Char) (c : Char) (rest : List Char)
    (h : ¬ matchHere prev (c :: rest) = true) :
    scanHashes prev (c :: rest) = scanHashes (some c) rest := by
  unfold scanHashes
  simp only [List.length_cons, scanAux, if_neg h]

theorem wordChar_of_hexDigit (c : Char) (h : hexDigit c = true) : wordChar c = true := by
  unfold hexDigit at h
  unfold wordChar
  simp only [Bool.or_eq_true, Bool.and_eq_true, decide_eq_true_eq] at h ⊢
  rcases h with (⟨h1, h2⟩ | ⟨h1, h2⟩) | ⟨h1, h2⟩
  · exact Or.inl (Or.inl (Or.inl ⟨h1, h2⟩))
  · exact Or.inl (Or.inl (Or.inr ⟨h1, le_trans h2 (show ('f' : Char) ≤ 'z' by decide)⟩))
  · exact Or.inl (Or.inr ⟨h1, le_trans h2 (show ('F' : Char) ≤ 'Z' by decide)⟩)

theorem matchHere_parts (prev : Option Char) (l : List Char) (h : matchHere prev l = true) :
    boundaryOk prev = true ∧ (l.take 64).length = 64 ∧ (l.take 64).all hexDigit = true ∧
      tailBoundaryOk (l.drop 64) = true := by
  unfold matchHere at h
  simp only [Bool.and_eq_true, decide_eq_true_eq] at h
  exact ⟨h.1.1.1, h.1.1.2, h.1.2, h.2⟩

theorem scanHashes_shape_aux (n : Nat) :
    ∀ (l : List Char), l.length ≤ n → ∀ (prev : Option Char) (m : List Char),
      m ∈ scanHashes prev l → m.length = 64 ∧ m.all hexDigit = true := by
  induction n with
  | zero =>
      intro l hl prev m hm
      have hnil : l = [] := List.length_eq_zero.mp (Nat.le_zero.mp hl)
      subst hnil
      rw [show scanHashes prev [] = [] from rfl] at hm
      cases hm
  | succ k ih =>
      intro l hl prev m hm
      cases l with
      | nil =>
          rw [show scanHashes prev [] = [] from rfl] at hm
          cases hm
      | cons c rest =>
          by_cases h : matchHere prev (c :: rest) = true
          · rw [scanHashes_cons_pos prev c rest h] at hm
            rcases List.mem_cons.mp hm with heq | hm'
            · obtain ⟨_, hlen, hall, _⟩ := matchHere_parts prev (c :: rest) h
              exact ⟨heq ▸ hlen, heq ▸ hall⟩
            · refine ih _ ?_ _ _ hm'
              simp only [List.length_drop, List.length_cons]
              simp only [List.length_cons] at hl
              omega
          · rw [scanHashes_cons_neg prev c rest h] at hm
            refine ih _ ?_ _ _ hm
            simp only [List.length_cons] at hl
            omega

theorem scanHashes_shape (l : List Char) (prev : Option Char) (m : List Char)
    (hm : m ∈ scanHashes prev l) : m.length = 64 ∧ m.all hexDigit = true :=
  scanHashes_shape_aux l.length l (Nat.le_refl _) prev m hm

/-- lastOr gives the character immediately before the suffix that follows
`l`, when the scan of `l` started after the character `prev`. -/
def lastOr (l : List Char) (prev : Option Char) : Option Char :=
  match l.getLast? with
  | some c => some c
  | none => prev

theorem getLast?_drop_of_lt (l : List Char) (n : Nat) (h : n < l.length) :
    (l.drop n).getLast? = l.getLast? := by
  conv_rhs => rw [← List.take_append_drop n l]
  rw [List.getLast?_append_of_ne_nil]
  apply List.length_pos.mp
  simp only [List.length_drop]
  omega

theorem scan_match_at_start_eq (prev : Option Char) (s post : List Char)
    (hslen : s.length = 64) (hshex : s.all hexDigit = true)
    (hb : boundaryOk prev = true) (hpost : tailBoundaryOk post = true) :
    scanHashes prev (s ++ post) = s :: scanHashes s.getLast? post := by
  cases s with
  | nil => simp at hslen
  | cons c s' =>
      have htake : ((c :: s') ++ post).take 64 = c :: s' := by
        rw [List.take_append_eq_append_take]
        rw [List.take_of_length_le (le_of_eq hslen), hslen]
        simp
      have hdrop : ((c :: s') ++ post).drop 64 = post := by
        rw [List.drop_append_eq_append_drop]
        rw [List.drop_eq_nil_of_le (le_of_eq hslen), hslen]
        simp
      have hmatch : matchHere prev ((c :: s') ++ post) = true := by
        unfold matchHere
        rw [htake, hdrop]
        simp [hb, hslen, hshex, hpost]
      have hl : (c :: s') ++ post = c :: (s' ++ post) := rfl
      rw [hl] at hmatch ⊢
      rw [scanHashes_cons_pos _ _ _ hmatch]
      have ht2 : (c :: (s' ++ post)).take 64 = c :: s' := by
        rw [← hl]
        exact htake
      have hd2 : (c :: (s' ++ post)).drop 64 = post := by
        rw [← hl]
        exact hdrop
      rw [ht2, hd2]

theorem scan_match_at_start (prev : Option Char) (s post : List Char)
    (hslen : s.length = 64) (hshex : s.all hexDigit = true)
    (hb : boundaryOk prev = true) (hpost : tailBoundaryOk post = true) :
    s ∈ scanHashes prev (s ++ post) := by
  rw [scan_match_at_start_eq prev s post hslen hshex hb hpost]
  exact List.mem_cons_self _ _

theorem lastOr_cons (c : Char) (l : List Char) (prev : Option Char) :
    lastOr l (some c) = lastOr (c :: l) prev := by
  cases l with
  | nil => rfl
  | cons d l' =>
      obtain ⟨e, he⟩ : ∃ e, (d :: l').getLast? = some e :=
        Option.isSome_iff_exists.mp (List.getLast?_isSome.mpr (by simp))
      unfold lastOr
      rw [List.getLast?_cons_cons, he]

theorem scan_through_nonhex (l : List Char) :
    ∀ (prev : Option Char) (rest : List Char), (∀ c ∈ l, hexDigit c = false) →
      scanHashes prev (l ++ rest) = scanHashes (lastOr l prev) rest := by
  induction l with
  | nil => intro prev rest h; rfl
  | cons c l' ih =>
      intro prev rest h
      have hc : hexDigit c = false := h c (List.mem_cons_self c l')
      have hmf : matchHere prev (c :: (l' ++ rest)) = false := by
        unfold matchHere
        rw [show (64 : Nat) = 63 + 1 from rfl, List.take_succ_cons]
        simp [hc]
      rw [show (c :: l') ++ rest = c :: (l' ++ rest) from rfl]
      rw [scanHashes_cons_neg _ _ _ (by simp [hmf])]
      rw [ih (some c) rest (fun d hd => h d (List.mem_cons_of_mem c hd))]
      rw [lastOr_cons]

theorem scan_reaches_aux (n : Nat) :
    ∀ (pre : List Char), pre.length ≤ n → ∀ (prev : Option Char) (s post : List Char),
      s.length = 64 → s.all hexDigit = true →
      boundaryOk (lastOr pre prev) = true → tailBoundaryOk post = true →
      s ∈ scanHashes prev (pre ++ (s ++ post)) := by
  induction n with
  | zero =>
      intro pre hpre prev s post hslen hshex hb hpost
      have hnil : pre = [] := List.length_eq_zero.mp (Nat.le_zero.mp hpre)
      subst hnil
      exact scan_match_at_start prev s post hslen hshex hb hpost
  | succ k ih =>
      intro pre hpre prev s post hslen hshex hb hpost
      cases pre with
      | nil => exact scan_match_at_start prev s post hslen hshex hb hpost
      | cons p pre' =>
          have hl : (p :: pre') ++ (s ++ post) = p :: (pre' ++ (s ++ post)) := rfl
          by_cases hm : matchHere prev ((p :: pre') ++ (s ++ post)) = true
          · obtain ⟨c₀, hlast⟩ : ∃ c₀, (p :: pre').getLast? = some c₀ :=
              Option.isSome_iff_exists.mp (List.getLast?_isSome.mpr (by simp))
            have hw : wordChar c₀ = false := by
              unfold lastOr at hb
              rw [hlast] at hb
              unfold boundaryOk at hb
              simpa using hb
            obtain ⟨_, hlen64, hall, htb⟩ := matchHere_parts _ _ hm
            have hlen65 : 65 ≤ (p :: pre').length := by
              by_contra hcon
              push_neg at hcon
              have hple : (p :: pre').length ≤ 64 := by omega
              have hmem0 : c₀ ∈ (p :: pre') := List.mem_of_mem_getLast? hlast
              have hmemtake : c₀ ∈ ((p :: pre') ++ (s ++ post)).take 64 := by
                rw [List.take_append_eq_append_take]
                have hmt : c₀ ∈ (p :: pre').take 64 := by
                  rw [List.take_of_length_le hple]
                  exact hmem0
                exact List.mem_append_left _ hmt
              have hhex : hexDigit c₀ = true := List.all_eq_true.mp hall c₀ hmemtake
              rw [wordChar_of_hexDigit c₀ hhex] at hw
              cases hw
            have htake : ((p :: pre') ++ (s ++ post)).take 64 = (p :: pre').take 64 := by
              rw [List.take_append_eq_append_take]
              rw [show 64 - (p :: pre').length = 0 by omega]
              simp
            have hdrop : ((p :: pre') ++ (s ++ post)).drop 64
                = (p :: pre').drop 64 ++ (s ++ post) := by
              rw [List.drop_append_eq_append_drop]
              rw [show 64 - (p :: pre').length = 0 by omega]
              simp
            rw [hl] at hm ⊢
            rw [scanHashes_cons_pos _ _ _ hm]
            apply List.mem_cons_of_mem
            show s ∈ scanHashes ((((p :: pre') ++ (s ++ post)).take 64).getLast?)
              (((p :: pre') ++ (s ++ post)).drop 64)
            rw [htake, hdrop]
            refine ih ((p :: pre').drop 64) ?_ _ s post hslen hshex ?_ hpost
            · simp only [List.length_drop, List.length_cons]
              simp only [List.length_cons] at hpre
              omega
            · have hld : ((p :: pre').drop 64).getLast? = some c₀ := by
                rw [getLast?_drop_of_lt _ _ (by omega), hlast]
              unfold lastOr
              rw [hld]
              unfold boundaryOk
              simp [hw]
          · rw [hl] at hm ⊢
            rw [scanHashes_cons_neg _ _ _ hm]
            refine ih pre' ?_ (some p) s post hslen hshex ?_ hpost
            · simp only [List.length_cons] at hpre
              omega
            · cases pre' with
              | nil =>
                  unfold lastOr at hb ⊢
                  simpa using hb
              | cons q pre'' =>
                  unfold lastOr at hb ⊢
                  rw [List.getLast?_cons_cons] at hb
                  exact hb

/-- C3: hash-shape scan correctness. For every 64-character hexadecimal
string s (either case) embedded in text whose characters adjacent to s are
not word characters, the SHA256_PATTERN scan extracts exactly the substring
s: s is among the matches, every match is itself a full 64-character
hexadecimal string (no partial matches; the scan never overlaps matches by
construction, resuming after each match's end), and when the surrounding
text contains no hexadecimal digit at all the result is exactly [s]. -/
theorem sha256_scan_extracts (pre s post : List Char)
    (hslen : s.length = 64) (hshex : s.all hexDigit = true)
    (hb : boundaryOk (lastOr pre none) = true)
    (hpost : tailBoundaryOk post = true) :
    s ∈ scanHashes none (pre ++ (s ++ post)) ∧
    (∀ m ∈ scanHashes none (pre ++ (s ++ post)), m.length = 64 ∧ m.all hexDigit = true) ∧
    ((∀ c ∈ pre, hexDigit c = false) → (∀ c ∈ post, hexDigit c = false) →
      scanHashes none (pre ++ (s ++ post)) = [s]) := by
  refine ⟨scan_reaches_aux pre.length pre (Nat.le_refl _) none s post hslen hshex hb hpost,
    fun m hm => scanHashes_shape _ _ _ hm, fun hpre0 hpost0 => ?_⟩
  rw [scan_through_nonhex pre none (s ++ post) hpre0]
  rw [scan_match_at_start_eq _ s post hslen hshex hb hpost]
  have h0 := scan_through_nonhex post s.getLast? [] hpost0
  rw [List.append_nil] at h0
  rw [h0]
  rfl

/-- C3 witness: a mixed-case 64-character hex string surrounded by
non-word, non-hex context is extracted exactly. -/
theorem sha256_scan_extracts_witness :
    (List.replicate 32 'A' ++ List.replicate 32 'f')
      ∈ scanHashes none ("zz: ".toList
          ++ ((List.replicate 32 'A' ++ List.replicate 32 'f') ++ ".".toList)) ∧
    scanHashes none ("zz: ".toList
        ++ ((List.replicate 32 'A' ++ List.replicate 32 'f') ++ ".".toList))
      = [List.replicate 32 'A' ++ List.replicate 32 'f'] :=
  ⟨(sha256_scan_extracts ("zz: ".toList) (List.replicate 32 'A' ++ List.replicate 32 'f')
      (".".toList) (by decide) (by decide) (by decide) (by decide)).1,
   (sha256_scan_extracts ("zz: ".toList) (List.replicate 32 'A' ++ List.replicate 32 'f')
      (".".toList) (by decide) (by decide) (by decide) (by decide)).2.2
      (by decide) (by decide)⟩
